import Mathlib

/-!
Verification of the card-pool core of `cat` (cards-against-tamadras).

The source module `cat/structures.py` defines a `Deck` class holding Python
sets of "black" and "white" cards.  Cards are hashable opaque values; the
source exercises them as strings, so we embed cards as `String` and Python
sets as `Finset String`.  Python truthiness is embedded explicitly: a string
is falsy exactly when it is empty, an `Option` current card is falsy when it
is `none` or holds the empty string, and a set is falsy when it is empty.

Python `set.pop` removes an arbitrary element.  Each operation that pops is
therefore parameterised by the chosen element(s); a choice that could not be
the result of popping (an element not in the set, or the wrong number of
elements) yields `none`, which is not a real execution.  Reachability
quantifies over all valid choices, so invariants proved over `Reach` cover
every possible pop order of the source.
-/

namespace Cat

/-- State of `cat.structures.Deck`: the two master pools (`_black`/`_white`
in the source, `mblack`/`mwhite` here since Lean reserves leading-underscore
names for holes) and the six derived fields. -/
structure Deck where
  mblack : Finset String
  mwhite : Finset String
  black : Finset String
  white : Finset String
  current : Option String
  discarded : Finset String
  in_play : Finset String
  won : Finset String
  deriving DecidableEq

/-- Python truthiness of a string: falsy exactly when empty. -/
def truthyStr (s : String) : Bool := !(s == "")

/-- Python truthiness of the `current` field: `None` and the empty string
are falsy. -/
def truthyCur : Option String → Bool
  | none => false
  | some s => truthyStr s

/-- `Deck.reshuffle`: reset the derived fields from the master pools. -/
def reshuffle (d : Deck) : Deck :=
  { d with
    black := d.mblack
    white := d.mwhite
    current := none
    discarded := ∅
    in_play := ∅
    won := ∅ }

/-- `Deck.__init__`: record the master pools (deduplicating the iterables
into sets) and reshuffle. -/
def init (black white : List String) : Deck :=
  reshuffle
    { mblack := black.toFinset
      mwhite := white.toFinset
      black := ∅
      white := ∅
      current := none
      discarded := ∅
      in_play := ∅
      won := ∅ }

/-- Result of `Deck.discard`: either the updated deck, or the `KeyError`
(the spec's CardNotInPlayError) naming the offending card, together with the
deck state at the moment of the raise (earlier cards of the same call have
already been moved, as in the source). -/
inductive DiscardRes where
  | ok (d : Deck)
  | notInPlay (card : String) (d : Deck)
  deriving DecidableEq

/-- `Deck.discard(*cards)`: move each card from `in_play` to `discarded`,
raising on the first card not in play and keeping the mutations made so
far. -/
def discard : Deck → List String → DiscardRes
  | d, [] => .ok d
  | d, card :: rest =>
    if card ∈ d.in_play then
      discard
        { d with in_play := d.in_play.erase card
                 discarded := insert card d.discarded } rest
    else
      .notInPlay card d

/-- Result of `Deck.draw`: the drawn set and updated deck, or the
`KeyError` from popping an exhausted pool (the spec's EmptyPoolError)
together with the deck state at the raise. -/
inductive DrawRes where
  | ok (drawn : Finset String) (d : Deck)
  | emptyPool (d : Deck)
  deriving DecidableEq

/-- `Deck.draw(n)`: pop `n` cards from `white` and add them to `in_play`.
The arbitrary pop order is abstracted by the chosen set `picks`: a valid
choice is a subset of `white` of size `min n |white|` (when the pool runs
out, every card has been popped).  On failure the pops already made are
kept — `white` is emptied — and `in_play` is not updated, as in the source
where the exception escapes before `in_play.update` runs. -/
def draw (d : Deck) (n : Nat) (picks : Finset String) : Option DrawRes :=
  if picks ⊆ d.white ∧ picks.card = min n d.white.card then
    if d.white.card < n then
      some (.emptyPool { d with white := ∅ })
    else
      some (.ok picks
        { d with white := d.white \ picks, in_play := d.in_play ∪ picks })
  else
    none

/-- First half of `Deck.new`: `if self.current: self.won.add(self.current)`.
A falsy current card (`None`, or the empty string) is not added to `won`. -/
def resolveCurrent (d : Deck) : Deck :=
  if truthyCur d.current then { d with won := insert (d.current.getD "") d.won }
  else d

/-- Result of `Deck.new`: the drawn black card and updated deck, or the
`KeyError` from popping an empty black pool, with the deck state at the
raise (the current card has already been resolved at that point). -/
inductive NewRes where
  | ok (card : String) (d : Deck)
  | emptyPool (d : Deck)
  deriving DecidableEq

/-- `Deck.new()`: resolve the current card, then pop the chosen card `c`
from `black` and make it current, returning it.  Popping an empty pool
raises after the resolve step has already mutated `won`. -/
def new (d : Deck) (c : String) : Option NewRes :=
  let d1 := resolveCurrent d
  if c ∈ d1.black then
    some (.ok c { d1 with black := d1.black.erase c, current := some c })
  else if d1.black = ∅ then
    some (.emptyPool d1)
  else
    none

/-- `Deck.__bool__`: `bool(self.black or (self.current and self.in_play))`,
with Python truthiness of each operand made explicit. -/
def deckBool (d : Deck) : Bool :=
  decide (d.black ≠ ∅) || (truthyCur d.current && decide (d.in_play ≠ ∅))

/-- The generator `Deck.__next__` (reached through `__iter__`): while
`black` is non-empty, call `new` and yield its result; stop normally once
`black` is exhausted.  The pop choices are supplied as a list; the result is
the list of yielded cards and the final deck. -/
def rounds : Deck → List String → Option (List String × Deck)
  | d, [] => if d.black = ∅ then some ([], d) else none
  | d, c :: rest =>
    if d.black = ∅ then
      some ([], d)
    else
      match new d c with
      | some (.ok card d1) =>
        match rounds d1 rest with
        | some (l, df) => some (card :: l, df)
        | none => none
      | _ => none

/-- States reachable by a finite sequence of successful operations from
some construction. -/
inductive Reach : Deck → Prop
  | init (black white : List String) : Reach (init black white)
  | reshuffle {d : Deck} : Reach d → Reach (reshuffle d)
  | draw {d : Deck} {n : Nat} {picks s : Finset String} {d1 : Deck} :
      Reach d → draw d n picks = some (.ok s d1) → Reach d1
  | discard {d : Deck} {cs : List String} {d1 : Deck} :
      Reach d → discard d cs = .ok d1 → Reach d1
  | new {d : Deck} {c card : String} {d1 : Deck} :
      Reach d → new d c = some (.ok card d1) → Reach d1

/-- The current card as a set: empty when absent. -/
def curSet (d : Deck) : Finset String :=
  match d.current with
  | none => ∅
  | some c => {c}

/-- The black-card partition of the spec: undrawn, current and resolved are
pairwise disjoint and together exhaust the master black pool. -/
def blackPartition (d : Deck) : Prop :=
  d.black ∪ curSet d ∪ d.won = d.mblack ∧
    d.black ∩ curSet d = ∅ ∧ d.black ∩ d.won = ∅ ∧ curSet d ∩ d.won = ∅

/-- The white-card partition of the spec: undrawn, in-play and discarded are
pairwise disjoint and together exhaust the master white pool. -/
def whitePartition (d : Deck) : Prop :=
  d.white ∪ d.in_play ∪ d.discarded = d.mwhite ∧
    d.white ∩ d.in_play = ∅ ∧ d.white ∩ d.discarded = ∅ ∧
      d.in_play ∩ d.discarded = ∅

instance (d : Deck) : Decidable (blackPartition d) := by
  unfold blackPartition; infer_instance

instance (d : Deck) : Decidable (whitePartition d) := by
  unfold whitePartition; infer_instance

/-- The deck `init ["", "Q1"] ["A1"]` after `new` popped the falsy black
card `""`. -/
def c1mid : Deck :=
  { mblack := {"", "Q1"}, mwhite := {"A1"}, black := {"Q1"}, white := {"A1"},
    current := some "", discarded := ∅, in_play := ∅, won := ∅ }

/-- The deck `c1mid` after `new` popped `"Q1"`: the falsy current card `""`
has been dropped from every pool. -/
def c1bad : Deck :=
  { mblack := {"", "Q1"}, mwhite := {"A1"}, black := ∅, white := {"A1"},
    current := some "Q1", discarded := ∅, in_play := ∅, won := ∅ }

/-- A reachable deck whose current card is the falsy `""` while a black
card is still undrawn (same trace as `c1mid`). -/
def c3pre : Deck :=
  { mblack := {"", "Q1"}, mwhite := {"A1"}, black := {"Q1"}, white := {"A1"},
    current := some "", discarded := ∅, in_play := ∅, won := ∅ }

/-- The deck `c3pre` after `new` popped `"Q1"`: the existing current card
`""` was not moved into `won`. -/
def c3after : Deck :=
  { mblack := {"", "Q1"}, mwhite := {"A1"}, black := ∅, white := {"A1"},
    current := some "Q1", discarded := ∅, in_play := ∅, won := ∅ }

/-- The deck `init [""] ["A1"]` after `new` popped the falsy black card
`""`. -/
def c4mid : Deck :=
  { mblack := {""}, mwhite := {"A1"}, black := ∅, white := {"A1"},
    current := some "", discarded := ∅, in_play := ∅, won := ∅ }

/-- The deck `c4mid` after `draw 1` drew `"A1"`: black pool empty, a current
card is set and a white card is in play, yet `deckBool` is `false` because
the current card `""` is falsy. -/
def c4bad : Deck :=
  { mblack := {""}, mwhite := {"A1"}, black := ∅, white := ∅,
    current := some "", discarded := ∅, in_play := {"A1"}, won := ∅ }

/-- Final deck of the `rounds` witness run over `init ["Q1"] []`. -/
def c6fin : Deck :=
  { mblack := {"Q1"}, mwhite := ∅, black := ∅, white := ∅,
    current := some "Q1", discarded := ∅, in_play := ∅, won := ∅ }

/-- The deck left behind by a failed `draw 2` on `init [] ["A1"]`: the one
white card was popped and lost. -/
def c89err : Deck :=
  { mblack := ∅, mwhite := {"A1"}, black := ∅, white := ∅,
    current := none, discarded := ∅, in_play := ∅, won := ∅ }

/-- A deck whose current card is the falsy `""`, used to instantiate the
truthiness theorem. -/
def c10pre : Deck :=
  { mblack := {"", "Q1"}, mwhite := ∅, black := {"Q1"}, white := ∅,
    current := some "", discarded := ∅, in_play := ∅, won := ∅ }

end Cat

namespace Cat

theorem inter_eq_empty_iff {a b : Finset String} :
    a ∩ b = ∅ ↔ ∀ x, x ∈ a → x ∉ b := by
  simp [Finset.eq_empty_iff_forall_not_mem, not_and]

theorem resolveCurrent_mblack (d : Deck) :
    (resolveCurrent d).mblack = d.mblack := by
  unfold resolveCurrent; split <;> rfl

theorem resolveCurrent_mwhite (d : Deck) :
    (resolveCurrent d).mwhite = d.mwhite := by
  unfold resolveCurrent; split <;> rfl

theorem resolveCurrent_black (d : Deck) :
    (resolveCurrent d).black = d.black := by
  unfold resolveCurrent; split <;> rfl

theorem resolveCurrent_white (d : Deck) :
    (resolveCurrent d).white = d.white := by
  unfold resolveCurrent; split <;> rfl

theorem resolveCurrent_current (d : Deck) :
    (resolveCurrent d).current = d.current := by
  unfold resolveCurrent; split <;> rfl

theorem resolveCurrent_in_play (d : Deck) :
    (resolveCurrent d).in_play = d.in_play := by
  unfold resolveCurrent; split <;> rfl

theorem resolveCurrent_discarded (d : Deck) :
    (resolveCurrent d).discarded = d.discarded := by
  unfold resolveCurrent; split <;> rfl

theorem resolveCurrent_won_of_falsy {d : Deck} (h : truthyCur d.current = false) :
    (resolveCurrent d).won = d.won := by
  unfold resolveCurrent; rw [h]; rfl

theorem resolveCurrent_won_of_truthy {d : Deck} (h : truthyCur d.current = true) :
    (resolveCurrent d).won = insert (d.current.getD "") d.won := by
  unfold resolveCurrent; rw [h]; rfl

theorem curSet_none {d : Deck} (h : d.current = none) : curSet d = ∅ := by
  unfold curSet; rw [h]

theorem curSet_some {d : Deck} {s : String} (h : d.current = some s) :
    curSet d = {s} := by
  unfold curSet; rw [h]

theorem draw_ok_elim {d : Deck} {n : Nat} {picks s : Finset String} {d1 : Deck}
    (h : draw d n picks = some (.ok s d1)) :
    s = picks ∧ picks ⊆ d.white ∧ picks.card = n ∧ n ≤ d.white.card ∧
      d1 = { d with white := d.white \ picks, in_play := d.in_play ∪ picks } := by
  unfold draw at h
  split at h
  · rename_i hg
    split at h
    · simp at h
    · rename_i hlt
      have hle : n ≤ d.white.card := Nat.not_lt.mp hlt
      obtain ⟨hs, hd⟩ : s = picks ∧
          { d with white := d.white \ picks, in_play := d.in_play ∪ picks } = d1 := by
        simpa [eq_comm] using h
      exact ⟨hs, hg.1, by rw [hg.2, Nat.min_eq_left hle], hle, hd.symm⟩
  · simp at h

theorem draw_err_elim {d : Deck} {n : Nat} {picks : Finset String} {d1 : Deck}
    (h : draw d n picks = some (.emptyPool d1)) :
    picks = d.white ∧ d.white.card < n ∧ d1 = { d with white := ∅ } := by
  unfold draw at h
  split at h
  · rename_i hg
    split at h
    · rename_i hlt
      refine ⟨?_, hlt, by simpa [eq_comm] using h⟩
      have : d.white.card ≤ picks.card := by
        rw [hg.2, Nat.min_eq_right (Nat.le_of_lt hlt)]
      exact Finset.eq_of_subset_of_card_le hg.1 this
    · simp at h
  · simp at h

theorem new_ok_elim {d : Deck} {c card : String} {d1 : Deck}
    (h : new d c = some (.ok card d1)) :
    card = c ∧ c ∈ d.black ∧ d1.mblack = d.mblack ∧ d1.mwhite = d.mwhite ∧
      d1.black = d.black.erase c ∧ d1.white = d.white ∧
        d1.current = some c ∧ d1.discarded = d.discarded ∧
          d1.in_play = d.in_play ∧ d1.won = (resolveCurrent d).won := by
  unfold new at h
  simp only [resolveCurrent_black] at h
  split at h
  · rename_i hc
    obtain ⟨h1, h2⟩ : c = card ∧
        ({ resolveCurrent d with
           black := d.black.erase c
           current := some c } : Deck) = d1 := by
      simpa [resolveCurrent_black] using h
    subst h2
    refine ⟨h1.symm, hc, ?_, ?_, ?_, ?_, ?_, ?_, ?_, ?_⟩
    · exact resolveCurrent_mblack d
    · exact resolveCurrent_mwhite d
    · rfl
    · exact resolveCurrent_white d
    · rfl
    · exact resolveCurrent_discarded d
    · exact resolveCurrent_in_play d
    · rfl
  · split at h <;> simp at h

theorem new_err_elim {d : Deck} {c : String} {d1 : Deck}
    (h : new d c = some (.emptyPool d1)) :
    d.black = ∅ ∧ d1 = resolveCurrent d := by
  unfold new at h
  simp only [resolveCurrent_black] at h
  split at h
  · simp at h
  · split at h
    · rename_i he
      exact ⟨he, by simpa [eq_comm] using h⟩
    · simp at h

theorem discard_nil (d : Deck) : discard d [] = .ok d := rfl

theorem discard_cons_mem {d : Deck} {card : String} {rest : List String}
    (h : card ∈ d.in_play) :
    discard d (card :: rest) =
      discard { d with
                in_play := d.in_play.erase card
                discarded := insert card d.discarded } rest := by
  conv_lhs => rw [discard]
  rw [if_pos h]

theorem discard_cons_not_mem {d : Deck} {card : String} {rest : List String}
    (h : card ∉ d.in_play) :
    discard d (card :: rest) = .notInPlay card d := by
  conv_lhs => rw [discard]
  rw [if_neg h]

theorem whitePartition_reshuffle (d : Deck) : whitePartition (reshuffle d) := by
  simp [whitePartition, reshuffle]

theorem blackPartition_reshuffle (d : Deck) : blackPartition (reshuffle d) := by
  simp [blackPartition, reshuffle, curSet]

theorem whitePartition_of_eq {d d1 : Deck} (h1 : d1.mwhite = d.mwhite)
    (h2 : d1.white = d.white) (h3 : d1.in_play = d.in_play)
    (h4 : d1.discarded = d.discarded) (h : whitePartition d) :
    whitePartition d1 := by
  unfold whitePartition at h ⊢
  rw [h1, h2, h3, h4]
  exact h

theorem blackPartition_of_eq {d d1 : Deck} (hm : d1.mblack = d.mblack)
    (hb : d1.black = d.black) (hc : d1.current = d.current)
    (hw : d1.won = d.won) (h : blackPartition d) : blackPartition d1 := by
  unfold blackPartition curSet at h ⊢
  rw [hm, hb, hc, hw]
  exact h

theorem whitePartition_draw {d : Deck} {picks : Finset String}
    (hp : picks ⊆ d.white) (hw : whitePartition d) :
    whitePartition { d with
                     white := d.white \ picks
                     in_play := d.in_play ∪ picks } := by
  obtain ⟨h1, h2, h3, h4⟩ := hw
  rw [inter_eq_empty_iff] at h2 h3 h4
  have hp' : ∀ x, x ∈ picks → x ∈ d.white := fun x hx => hp hx
  refine ⟨?_, ?_, ?_, ?_⟩
  · rw [← h1]
    ext x
    simp only [Finset.mem_union, Finset.mem_sdiff]
    have := hp' x
    tauto
  · rw [inter_eq_empty_iff]
    intro x hx
    simp only [Finset.mem_sdiff] at hx
    simp only [Finset.mem_union]
    have := h2 x
    tauto
  · rw [inter_eq_empty_iff]
    intro x hx
    simp only [Finset.mem_sdiff] at hx
    exact h3 x hx.1
  · rw [inter_eq_empty_iff]
    intro x hx
    simp only [Finset.mem_union] at hx
    rcases hx with hx | hx
    · exact h4 x hx
    · exact h3 x (hp' x hx)

theorem whitePartition_discard_step {d : Deck} {card : String}
    (hc : card ∈ d.in_play) (hw : whitePartition d) :
    whitePartition { d with
                     in_play := d.in_play.erase card
                     discarded := insert card d.discarded } := by
  obtain ⟨h1, h2, h3, h4⟩ := hw
  rw [inter_eq_empty_iff] at h2 h3 h4
  refine ⟨?_, ?_, ?_, ?_⟩
  · rw [← h1]
    ext x
    simp only [Finset.mem_union, Finset.mem_erase, Finset.mem_insert]
    constructor
    · rintro ((hx | ⟨_, hx⟩) | (rfl | hx)) <;> tauto
    · rintro ((hx | hx) | hx)
      · tauto
      · by_cases hxc : x = card
        · subst hxc; tauto
        · tauto
      · tauto
  · rw [inter_eq_empty_iff]
    intro x hx
    simp only [Finset.mem_erase]
    intro hmem
    exact h2 x hx hmem.2
  · rw [inter_eq_empty_iff]
    intro x hx
    simp only [Finset.mem_insert]
    rintro (rfl | hmem)
    · exact h2 x hx hc
    · exact h3 x hx hmem
  · rw [inter_eq_empty_iff]
    intro x hx
    simp only [Finset.mem_erase] at hx
    simp only [Finset.mem_insert]
    rintro (rfl | hmem)
    · exact hx.1 rfl
    · exact h4 x hx.2 hmem

theorem discard_ok_elim {cs : List String} {d d1 : Deck}
    (h : discard d cs = .ok d1) :
    (whitePartition d → whitePartition d1) ∧ d1.mblack = d.mblack ∧
      d1.mwhite = d.mwhite ∧ d1.black = d.black ∧ d1.current = d.current ∧
        d1.won = d.won := by
  induction cs generalizing d with
  | nil =>
    rw [discard_nil] at h
    obtain rfl : d = d1 := by simpa using h
    exact ⟨fun hw => hw, rfl, rfl, rfl, rfl, rfl⟩
  | cons c rest ih =>
    by_cases hc : c ∈ d.in_play
    · rw [discard_cons_mem hc] at h
      obtain ⟨hw, h2, h3, h4, h5, h6⟩ := ih h
      exact ⟨fun hwp => hw (whitePartition_discard_step hc hwp), h2, h3, h4,
        h5, h6⟩
    · rw [discard_cons_not_mem hc] at h
      simp at h

theorem blackPartition_new {d d1 : Deck} {c : String} (hc : c ∈ d.black)
    (hm : d1.mblack = d.mblack) (hb : d1.black = d.black.erase c)
    (hcur1 : d1.current = some c) (hwn : d1.won = (resolveCurrent d).won)
    (hne : ("" : String) ∉ d.mblack) (bp : blackPartition d) :
    blackPartition d1 := by
  obtain ⟨h1, h2, h3, h4⟩ := bp
  rw [inter_eq_empty_iff] at h2 h3 h4
  unfold blackPartition
  rw [hm, hb, curSet_some hcur1, hwn]
  rcases hcur : d.current with _ | s
  · have hw0 : (resolveCurrent d).won = d.won :=
      resolveCurrent_won_of_falsy (by simp [hcur, truthyCur])
    rw [curSet_none hcur, Finset.union_empty] at h1
    rw [hw0]
    refine ⟨?_, ?_, ?_, ?_⟩
    · rw [← h1]
      ext x
      simp only [Finset.mem_union, Finset.mem_erase, Finset.mem_singleton]
      constructor
      · rintro ((⟨_, hx⟩ | rfl) | hx) <;> tauto
      · rintro (hx | hx)
        · by_cases hxc : x = c
          · tauto
          · tauto
        · tauto
    · rw [inter_eq_empty_iff]
      intro x hx
      simp only [Finset.mem_erase] at hx
      simp only [Finset.mem_singleton]
      exact hx.1
    · rw [inter_eq_empty_iff]
      intro x hx
      simp only [Finset.mem_erase] at hx
      exact h3 x hx.2
    · rw [inter_eq_empty_iff]
      intro x hx
      simp only [Finset.mem_singleton] at hx
      subst hx
      exact h3 x hc
  · have hsmem : s ∈ d.mblack := by
      rw [← h1]
      simp only [Finset.mem_union, curSet_some hcur, Finset.mem_singleton]
      tauto
    have hs0 : s ≠ "" := fun he => hne (he ▸ hsmem)
    have htr : truthyCur d.current = true := by
      simp [hcur, truthyCur, truthyStr, hs0]
    have hwon : (resolveCurrent d).won = insert s d.won := by
      rw [resolveCurrent_won_of_truthy htr, hcur]
      rfl
    rw [curSet_some hcur] at h1 h2 h4
    rw [hwon]
    refine ⟨?_, ?_, ?_, ?_⟩
    · rw [← h1]
      ext x
      simp only [Finset.mem_union, Finset.mem_erase, Finset.mem_insert,
        Finset.mem_singleton]
      constructor
      · rintro ((⟨_, hx⟩ | rfl) | (rfl | hx)) <;> tauto
      · rintro ((hx | rfl) | hx)
        · by_cases hxc : x = c
          · tauto
          · tauto
        · tauto
        · tauto
    · rw [inter_eq_empty_iff]
      intro x hx
      simp only [Finset.mem_erase] at hx
      simp only [Finset.mem_singleton]
      exact hx.1
    · rw [inter_eq_empty_iff]
      intro x hx
      simp only [Finset.mem_erase] at hx
      simp only [Finset.mem_insert]
      rintro (rfl | hmem)
      · exact h2 x hx.2 (Finset.mem_singleton_self x)
      · exact h3 x hx.2 hmem
    · rw [inter_eq_empty_iff]
      intro x hx
      simp only [Finset.mem_singleton] at hx
      subst hx
      simp only [Finset.mem_insert]
      rintro (rfl | hmem)
      · exact h2 x hc (Finset.mem_singleton_self x)
      · exact h3 x hc hmem

theorem reach_partitions {d : Deck} (h : Reach d) :
    whitePartition d ∧ (("" : String) ∉ d.mblack → blackPartition d) := by
  induction h with
  | init b w =>
    exact ⟨whitePartition_reshuffle _, fun _ => blackPartition_reshuffle _⟩
  | reshuffle _ _ =>
    exact ⟨whitePartition_reshuffle _, fun _ => blackPartition_reshuffle _⟩
  | draw _ hd ih =>
    obtain ⟨_, hp, _, _, rfl⟩ := draw_ok_elim hd
    exact ⟨whitePartition_draw hp ih.1,
      fun hne => blackPartition_of_eq rfl rfl rfl rfl (ih.2 hne)⟩
  | discard _ hd ih =>
    obtain ⟨hw, h2, h3, h4, h5, h6⟩ := discard_ok_elim hd
    exact ⟨hw ih.1,
      fun hne => blackPartition_of_eq h2 h4 h5 h6 (ih.2 (h2 ▸ hne))⟩
  | new _ hn ih =>
    obtain ⟨-, hc, hm, hmw, hb, hw, hcur1, hdisc, hip, hwon⟩ := new_ok_elim hn
    refine ⟨whitePartition_of_eq hmw hw hip hdisc ih.1, fun hne => ?_⟩
    have hne2 := hm ▸ hne
    exact blackPartition_new hc hm hb hcur1 hwon hne2 (ih.2 hne2)

theorem draw_exists_ok {d : Deck} {n : Nat} (h : n ≤ d.white.card) :
    ∃ picks d1, draw d n picks = some (.ok picks d1) := by
  obtain ⟨t, ht, hcard⟩ := Finset.exists_subset_card_eq h
  refine ⟨t, { d with
               white := d.white \ t
               in_play := d.in_play ∪ t }, ?_⟩
  unfold draw
  rw [if_pos ⟨ht, by rw [hcard, Nat.min_eq_left h]⟩,
    if_neg (Nat.not_lt.mpr h)]

theorem new_exists_ok {d : Deck} (h : d.black ≠ ∅) :
    ∃ c d1, new d c = some (.ok c d1) := by
  obtain ⟨c, hc⟩ := Finset.nonempty_iff_ne_empty.mpr h
  refine ⟨c, { resolveCurrent d with
               black := d.black.erase c
               current := some c }, ?_⟩
  unfold new
  simp only [resolveCurrent_black]
  rw [if_pos hc]

theorem rounds_sound {cs : List String} {d df : Deck} {l : List String}
    (h : rounds d cs = some (l, df)) :
    l.Nodup ∧ l.toFinset = d.black ∧ df.black = ∅ := by
  induction cs generalizing d l with
  | nil =>
    simp only [rounds] at h
    split at h
    · rename_i he
      obtain ⟨rfl, rfl⟩ : [] = l ∧ d = df := by simpa using h
      simp [he]
    · simp at h
  | cons c rest ih =>
    simp only [rounds] at h
    split at h
    · rename_i he
      obtain ⟨rfl, rfl⟩ : [] = l ∧ d = df := by simpa using h
      simp [he]
    · rename_i he
      split at h
      · rename_i card d1 hnew
        split at h
        · rename_i p l1 df1 hrec
          obtain ⟨rfl, rfl⟩ : card :: l1 = l ∧ df1 = df := by simpa using h
          obtain ⟨hnd, hto, hbl⟩ := ih hrec
          obtain ⟨rfl, hc, -, -, hb, -, -, -, -, -⟩ := new_ok_elim hnew
          rw [hb] at hto
          refine ⟨?_, ?_, hbl⟩
          · rw [List.nodup_cons]
            refine ⟨fun hmem => ?_, hnd⟩
            have hx : card ∈ l1.toFinset := List.mem_toFinset.mpr hmem
            rw [hto] at hx
            exact (Finset.mem_erase.mp hx).1 rfl
          · rw [List.toFinset_cons, hto]
            exact Finset.insert_erase hc
        · simp at h
      all_goals simp at h

theorem rounds_exists_aux :
    ∀ (n : Nat) (d : Deck), d.black.card = n →
      ∃ cs l df, rounds d cs = some (l, df) := by
  intro n
  induction n with
  | zero =>
    intro d hd
    refine ⟨[], [], d, ?_⟩
    simp [rounds, Finset.card_eq_zero.mp hd]
  | succ k ih =>
    intro d hd
    have hne : d.black ≠ ∅ := by
      intro h0
      rw [h0] at hd
      simp at hd
    obtain ⟨c, d1, hnew⟩ := new_exists_ok hne
    obtain ⟨-, hc, -, -, hb, -, -, -, -, -⟩ := new_ok_elim hnew
    have hcard1 : d1.black.card = k := by
      rw [hb, Finset.card_erase_of_mem hc, hd]
      rfl
    obtain ⟨cs, l, df, hrun⟩ := ih d1 hcard1
    refine ⟨c :: cs, c :: l, df, ?_⟩
    simp only [rounds]
    rw [if_neg hne, hnew]
    simp [hrun]

theorem rounds_exists (d : Deck) : ∃ cs l df, rounds d cs = some (l, df) :=
  rounds_exists_aux d.black.card d rfl

/-- C1 (counterexample): a reachable state in which the black-card
partition fails.  With master black pool containing the falsy card `""`,
`new` drops the falsy current card instead of resolving it, so undrawn,
current and resolved no longer cover the master pool. -/
theorem c1_partition_counterexample :
    Reach c1bad ∧ ¬ blackPartition c1bad ∧
      c1bad.black ∪ curSet c1bad ∪ c1bad.won ≠ c1bad.mblack :=
  ⟨Reach.new
      (Reach.new (Reach.init ["", "Q1"] ["A1"])
        (by decide : new (init ["", "Q1"] ["A1"]) "" =
          some (NewRes.ok "" c1mid)))
      (by decide : new c1mid "Q1" = some (NewRes.ok "Q1" c1bad)),
    by decide, by decide⟩

/-- C1 (amended): for every reachable state, the white cards partition
unconditionally; the black cards partition provided no falsy card (the
empty string) is in the master black pool. -/
theorem c1_partition_invariant {d : Deck} (h : Reach d) :
    whitePartition d ∧ (("" : String) ∉ d.mblack → blackPartition d) :=
  reach_partitions h

/-- C1 (witness): the partition invariant evaluated on a freshly
constructed deck. -/
theorem c1_partition_invariant_witness :
    whitePartition (init ["Q1"] ["A1"]) ∧
      (("" : String) ∉ (init ["Q1"] ["A1"]).mblack →
        blackPartition (init ["Q1"] ["A1"])) :=
  c1_partition_invariant (Reach.init ["Q1"] ["A1"])

/-- C2: when at least `n` cards are undrawn, `draw n` succeeds for some pop
choice, and every successful result is a set of exactly `n` cards taken
from the undrawn white pool, all in play afterwards and none still
undrawn. -/
theorem c2_draw_contract (d : Deck) (n : Nat) (hn : 0 < n)
    (hle : n ≤ d.white.card) :
    (∃ picks d1, draw d n picks = some (.ok picks d1)) ∧
      ∀ picks s d1, draw d n picks = some (.ok s d1) →
        s.card = n ∧ s ⊆ d.white ∧ s ⊆ d1.in_play ∧ s ∩ d1.white = ∅ := by
  refine ⟨draw_exists_ok hle, fun picks s d1 h => ?_⟩
  obtain ⟨rfl, hp, hcard, -, rfl⟩ := draw_ok_elim h
  refine ⟨hcard, hp, ?_, ?_⟩
  · intro x hx
    exact Finset.mem_union_right _ hx
  · rw [inter_eq_empty_iff]
    intro x hx
    simp only [Finset.mem_sdiff]
    tauto

/-- C2 (witness): the draw contract evaluated on a two-card white pool. -/
theorem c2_draw_contract_witness :
    (∃ picks d1,
        draw (init [] ["A1", "A2"]) 1 picks = some (.ok picks d1)) ∧
      ∀ picks s d1, draw (init [] ["A1", "A2"]) 1 picks = some (.ok s d1) →
        s.card = 1 ∧ s ⊆ (init [] ["A1", "A2"]).white ∧ s ⊆ d1.in_play ∧
          s ∩ d1.white = ∅ :=
  c2_draw_contract (init [] ["A1", "A2"]) 1 (by decide) (by decide)

/-- C3 (counterexample): a reachable state with a non-empty undrawn black
pool and an existing current card (the falsy `""`) where `new` succeeds but
does not move the current card into the resolved set. -/
theorem c3_advance_counterexample :
    Reach c3pre ∧ c3pre.black ≠ ∅ ∧ c3pre.current = some "" ∧
      new c3pre "Q1" = some (.ok "Q1" c3after) ∧ c3after.won = ∅ :=
  ⟨Reach.new (Reach.init ["", "Q1"] ["A1"])
      (by decide : new (init ["", "Q1"] ["A1"]) "" =
        some (NewRes.ok "" c3pre)),
    by decide, by decide, by decide, by decide⟩

/-- C3 (amended): when the undrawn black pool is non-empty, `new` succeeds
for some pop choice; every successful call removes the popped card from the
undrawn pool, makes it current and returns it, and moves the previous
current card into the resolved set exactly when that card is truthy
(present and not the empty string). -/
theorem c3_advance_amended (d : Deck) (h : d.black ≠ ∅) :
    (∃ c d1, new d c = some (.ok c d1)) ∧
      ∀ c card d1, new d c = some (.ok card d1) →
        card = c ∧ c ∈ d.black ∧ d1.current = some c ∧
          d1.black = d.black.erase c ∧
            (truthyCur d.current = true →
              d1.won = insert (d.current.getD "") d.won) ∧
              (truthyCur d.current = false → d1.won = d.won) := by
  refine ⟨new_exists_ok h, fun c card d1 hn => ?_⟩
  obtain ⟨h1, hc, -, -, hb, -, hcur1, -, -, hwon⟩ := new_ok_elim hn
  refine ⟨h1, hc, hcur1, hb, fun htr => ?_, fun hf => ?_⟩
  · rw [hwon, resolveCurrent_won_of_truthy htr]
  · rw [hwon, resolveCurrent_won_of_falsy hf]

/-- C3 (witness): the amended advance contract evaluated on a one-card
black pool. -/
theorem c3_advance_amended_witness :
    (∃ c d1, new (init ["Q1"] []) c = some (.ok c d1)) ∧
      ∀ c card d1, new (init ["Q1"] []) c = some (.ok card d1) →
        card = c ∧ c ∈ (init ["Q1"] []).black ∧ d1.current = some c ∧
          d1.black = (init ["Q1"] []).black.erase c ∧
            (truthyCur (init ["Q1"] []).current = true →
              d1.won = insert ((init ["Q1"] []).current.getD "")
                (init ["Q1"] []).won) ∧
              (truthyCur (init ["Q1"] []).current = false →
                d1.won = (init ["Q1"] []).won) :=
  c3_advance_amended (init ["Q1"] []) (by decide)

/-- C4 (counterexample): a reachable state in which `deckBool` is `false`
although the black pool is empty, a current card is present (the falsy
`""`) and a white card is in play — the claimed iff fails. -/
theorem c4_playable_counterexample :
    Reach c4bad ∧ deckBool c4bad = false ∧
      ¬ (c4bad.black = ∅ ∧ (c4bad.current = none ∨ c4bad.in_play = ∅)) :=
  ⟨Reach.draw
      (Reach.new (Reach.init [""] ["A1"])
        (by decide : new (init [""] ["A1"]) "" = some (NewRes.ok "" c4mid)))
      (by decide : draw c4mid 1 {"A1"} = some (DrawRes.ok {"A1"} c4bad)),
    by decide, by decide⟩

/-- C4 (amended): `deckBool` is `false` iff the undrawn black pool is empty
and (the current card is absent or falsy, or no white card is in play). -/
theorem c4_playable_amended (d : Deck) :
    deckBool d = false ↔
      d.black = ∅ ∧ (truthyCur d.current = false ∨ d.in_play = ∅) := by
  rcases htr : truthyCur d.current <;>
    simp [deckBool, htr, not_or]

/-- C5: after any sequence of operations on a deck constructed from master
collections `b` and `w`, `reshuffle` yields exactly the freshly constructed
deck over `b` and `w`. -/
theorem c5_reshuffle_reset (b w : List String) {d : Deck} (h : Reach d)
    (hb : d.mblack = b.toFinset) (hw : d.mwhite = w.toFinset) :
    reshuffle d = init b w := by
  simp [reshuffle, init, hb, hw]

/-- C5 (witness): reshuffling a freshly constructed deck gives that deck
back. -/
theorem c5_reshuffle_reset_witness :
    reshuffle (init ["Q1"] ["A1"]) = init ["Q1"] ["A1"] :=
  c5_reshuffle_reset ["Q1"] ["A1"] (Reach.init ["Q1"] ["A1"]) rfl rfl

/-- C6: iterating the deck terminates normally for some pop order, and
every terminating run yields each undrawn black card exactly once (the new
current card of each `new` call) and ends with the black pool exhausted. -/
theorem c6_rounds_spec (d : Deck) :
    (∃ cs l df, rounds d cs = some (l, df)) ∧
      ∀ cs l df, rounds d cs = some (l, df) →
        l.Nodup ∧ l.toFinset = d.black ∧ df.black = ∅ :=
  ⟨rounds_exists d, fun _ _ _ h => rounds_sound h⟩

/-- C6 (witness): the rounds contract evaluated on a one-card black
pool. -/
theorem c6_rounds_spec_witness :
    (["Q1"] : List String).Nodup ∧
      (["Q1"] : List String).toFinset = (init ["Q1"] []).black ∧
        c6fin.black = ∅ :=
  (c6_rounds_spec (init ["Q1"] [])).2 ["Q1"] ["Q1"] c6fin (by decide)

/-- C7: discarding a single card that is not in play reports the error
naming that card and returns with the deck unchanged. -/
theorem c7_discard_missing (d : Deck) (c : String) (h : c ∉ d.in_play) :
    discard d [c] = .notInPlay c d :=
  discard_cons_not_mem h

/-- C7 (witness): discarding the never-drawn card `"A1"` fails and leaves
the deck unchanged. -/
theorem c7_discard_missing_witness :
    discard (init ["Q1"] ["A1"]) ["A1"] =
      .notInPlay "A1" (init ["Q1"] ["A1"]) :=
  c7_discard_missing (init ["Q1"] ["A1"]) "A1" (by decide)

/-- C8: drawing more cards than remain undrawn fails with the empty-pool
error: the whole-pool pop order is a valid execution that fails, and every
valid execution fails the same way. -/
theorem c8_draw_overflow (d : Deck) (n : Nat) (hn : 0 < n)
    (hlt : d.white.card < n) :
    draw d n d.white = some (.emptyPool { d with white := ∅ }) ∧
      ∀ picks r, draw d n picks = some r →
        r = .emptyPool { d with white := ∅ } := by
  have hfirst : draw d n d.white = some (.emptyPool { d with white := ∅ }) := by
    unfold draw
    rw [if_pos ⟨Finset.Subset.refl _,
      by rw [Nat.min_eq_right (Nat.le_of_lt hlt)]⟩, if_pos hlt]
  refine ⟨hfirst, fun picks r h => ?_⟩
  rcases r with ⟨drawn, d1⟩ | ⟨d1⟩
  · obtain ⟨-, -, -, hle, -⟩ := draw_ok_elim h
    exact absurd hle (Nat.not_le.mpr hlt)
  · obtain ⟨-, -, rfl⟩ := draw_err_elim h
    rfl

/-- C8 (witness): drawing 2 from a 1-card white pool fails with the
empty-pool error. -/
theorem c8_draw_overflow_witness :
    draw (init [] ["A1"]) 2 (init [] ["A1"]).white =
      some (.emptyPool c89err) ∧
      ∀ picks r, draw (init [] ["A1"]) 2 picks = some r →
        r = .emptyPool c89err := by
  have h := c8_draw_overflow (init [] ["A1"]) 2 (by decide) (by decide)
  exact h

/-- C9: a failed draw is not atomic: it leaves the undrawn white pool
empty while adding nothing to the in-play or discarded sets, so when the
partition held before the call, the cards that were undrawn have left the
white-card partition entirely. -/
theorem c9_draw_not_atomic (d : Deck) (n : Nat) (hlt : d.white.card < n) :
    ∀ picks d1, draw d n picks = some (.emptyPool d1) →
      d1.white = ∅ ∧ d1.in_play = d.in_play ∧ d1.discarded = d.discarded ∧
        (whitePartition d →
          d1.white ∪ d1.in_play ∪ d1.discarded = d.mwhite \ d.white) := by
  intro picks d1 h
  obtain ⟨-, -, rfl⟩ := draw_err_elim h
  refine ⟨rfl, rfl, rfl, fun hw => ?_⟩
  obtain ⟨h1, h2, h3, h4⟩ := hw
  rw [inter_eq_empty_iff] at h2 h3
  rw [← h1]
  ext x
  simp only [Finset.mem_union, Finset.mem_sdiff, Finset.not_mem_empty,
    false_or]
  have := h2 x
  have := h3 x
  tauto

/-- C9 (witness): the non-atomic failure evaluated on a 1-card white
pool. -/
theorem c9_draw_not_atomic_witness :
    c89err.white = ∅ ∧ c89err.in_play = (init [] ["A1"]).in_play ∧
      c89err.discarded = (init [] ["A1"]).discarded ∧
        (whitePartition (init [] ["A1"]) →
          c89err.white ∪ c89err.in_play ∪ c89err.discarded =
            (init [] ["A1"]).mwhite \ (init [] ["A1"]).white) :=
  c9_draw_not_atomic (init [] ["A1"]) 2 (by decide) {"A1"} c89err (by decide)

/-- C10: a falsy current card (the empty string) is treated as absent:
`new` never moves it into the resolved set (it is simply replaced by the
newly drawn card), and `deckBool` reduces to emptiness of the black pool
alone. -/
theorem c10_falsy_current (d : Deck) (h : d.current = some "") :
    (∀ c card d1, new d c = some (.ok card d1) →
        d1.won = d.won ∧ d1.current = some c) ∧
      deckBool d = decide (d.black ≠ ∅) := by
  have hf : truthyCur d.current = false := by simp [h, truthyCur, truthyStr]
  refine ⟨fun c card d1 hn => ?_, ?_⟩
  · obtain ⟨-, -, -, -, -, -, hcur1, -, -, hwon⟩ := new_ok_elim hn
    exact ⟨by rw [hwon, resolveCurrent_won_of_falsy hf], hcur1⟩
  · simp [deckBool, hf]

/-- C10 (witness): the falsy-current behaviour evaluated on a concrete
deck whose current card is `""`. -/
theorem c10_falsy_current_witness :
    (∀ c card d1, new c10pre c = some (.ok card d1) →
        d1.won = c10pre.won ∧ d1.current = some c) ∧
      deckBool c10pre = decide (c10pre.black ≠ ∅) :=
  c10_falsy_current c10pre rfl

end Cat
